import Mathlib

/-!
Verification of the sparse delta exchange core of `decentralizepy`:
`src/decentralizepy/sharing/PartialModel.py` and
`src/decentralizepy/training/GradientAccumulator.py`.

Modelling conventions:
* torch float tensors are modelled as a shape together with flattened
  (row-major) data over `ℚ`; float arithmetic is modelled exactly.
* Python ordered dicts (`model.state_dict()`) are association lists in
  insertion order.
* in-place mutation (the `+=` summation loop, `T[index_tensor] = ...`)
  is modelled by explicit state passing: a function that mutates `self`
  in the source returns the updated `PartialModel` alongside its result.
* `json.dumps` / `json.loads` on the two wire fields are modelled by a
  concrete character-level codec for numeric-array literals, producing
  and consuming the same `[a, b, c]` text layout Python emits.
* fallible operations (`assert`, `raise NotImplementedError`, torch
  shape/bounds errors) return `Except PMError`.
-/

namespace DecentralizePy

/-- Entries of torch float tensors, modelled as rationals. -/
abbrev Scalar := ℚ

/-- A torch tensor: its shape and its flattened (row-major) data. -/
structure Tensor where
  shape : List ℕ
  data : List Scalar
deriving DecidableEq, Repr

/-- Elementwise `+=` of two same-shaped tensors. -/
def Tensor.add (t u : Tensor) : Tensor :=
  { shape := t.shape, data := List.zipWith (· + ·) t.data u.data }

/-- A tensor is well formed when its flattened length matches its shape. -/
def Tensor.wf (t : Tensor) : Prop := t.data.length = t.shape.prod

instance (t : Tensor) : Decidable t.wf := by unfold Tensor.wf; infer_instance

/-- The dict `model.state_dict()`: parameter names with their tensors, in the fixed
insertion order. -/
abbrev StateDict := List (String × Tensor)

/-- The model object as the sharing code sees it: its parameter state and
the `accumulated_gradients` list attached by `GradientAccumulator.train`
(one gradient snapshot dict per training step). -/
structure Model where
  state_dict : StateDict
  accumulated_gradients : List StateDict
deriving DecidableEq, Repr

/-- The iterator `model.parameters()`: the parameter tensors, in `state_dict` order. -/
def Model.parameters (m : Model) : List Tensor := m.state_dict.map Prod.snd

/-- The fields of `PartialModel` that the serialization path reads
(`alpha`, `dict_ordered`, `model`); the communication fields and the
diagnostic `save_shared` file dump are outside the protocol data path. -/
structure PartialModel where
  alpha : ℚ
  dict_ordered : Bool
  model : Model
deriving DecidableEq, Repr

/-- Python's builtin `round`: round half to even. -/
def pyRound (q : ℚ) : ℤ :=
  if Int.fract q < mkRat 1 2 then ⌊q⌋
  else if mkRat 1 2 < Int.fract q then ⌊q⌋ + 1
  else if ⌊q⌋ % 2 = 0 then ⌊q⌋ else ⌊q⌋ + 1

/-- The call `torch.topk(v, k, dim=0, sorted=False)`, index component: the indices
of the `k` largest entries of `v`.  torch's tie-break is
implementation-defined; it is modelled deterministically as stable
descending order (equal values keep lower indices first). -/
def topkIndices (v : List Scalar) (k : ℕ) : List ℕ :=
  ((List.range v.length).mergeSort
    (fun i j => decide (v.getD j 0 ≤ v.getD i 0))).take k

/-- One step of the summation loop body `gradient_sum[key] += d[key]`
(`PartialModel.py` line 71), on an association-list dict. -/
def updateAdd (gs : StateDict) (key : String) (t : Tensor) : StateDict :=
  gs.map (fun e => if e.1 = key then (e.1, e.2.add t) else e)

/-- Lines 68-71 of `PartialModel.py`: `gradient_sum` starts as
`accumulated_gradients[0]` and every later dict is `+=`-folded into it,
key by key.  (In the source this mutates `accumulated_gradients[0]` in
place; the caller `extractTopGradients` threads that state update.) -/
def gradientSum (acc : List StateDict) : StateDict :=
  match acc with
  | [] => []
  | d0 :: rest =>
      rest.foldl (fun gs d => d.foldl (fun g kv => updateAdd g kv.1 kv.2) gs) d0

/-- The call `torch.cat([v.data.flatten() for _, v in sd.items()], dim=0)`: the flat
vector of a structured collection, in key order. -/
def flattenStateDict (sd : StateDict) : List Scalar :=
  (sd.map (fun kv => kv.2.data)).flatten

/-- The accumulated-delta flat vector: the summed gradient dicts,
concatenated in key order (lines 68-75 of `PartialModel.py`). -/
def Model.deltaFlat (m : Model) : List Scalar :=
  flattenStateDict (gradientSum m.accumulated_gradients)

/-- Line 105-106 of `PartialModel.py`: the current parameter values as one
flat vector, `torch.cat([v.data.flatten() for v in model.parameters()])`. -/
def Model.paramsFlat (m : Model) : List Scalar :=
  (m.parameters.map (fun t => t.data)).flatten

/-- The failure modes of the sharing code: the `assert` on line 67, the
`raise NotImplementedError` on lines 113-114 / 135-136, a `json.loads`
parse failure, and the two torch errors `T[index_tensor] = values` can
raise (non-broadcastable value shape, index out of bounds). -/
inductive PMError where
  | EmptyAccumulation
  | NotImplementedError
  | MalformedMessage
  | ShapeMismatch
  | IndexOutOfRange
deriving DecidableEq, Repr

/-- The method `PartialModel.extract_top_gradients` (lines 65-78): asserts the
accumulated list is non-empty, sums it into its first entry (in place —
the returned state reflects that mutation), concatenates the absolute
summed gradients, and returns `torch.topk` of that vector with
`k = round(alpha * N)`. -/
def extractTopGradients (pm : PartialModel) :
    Except PMError ((List Scalar × List ℕ) × PartialModel) :=
  if 0 < pm.model.accumulated_gradients.length then
    let gsum := gradientSum pm.model.accumulated_gradients
    let gabs := (flattenStateDict gsum).map (fun x => |x|)
    let k := (pyRound (pm.alpha * (gabs.length : ℚ))).toNat
    let idx := topkIndices gabs k
    Except.ok ((idx.map (fun i => gabs.getD i 0), idx),
      { pm with model := { pm.model with
          accumulated_gradients := gsum :: pm.model.accumulated_gradients.tail } })
  else Except.error PMError.EmptyAccumulation

/-! ### The wire codec

`serialized_model` places `json.dumps(list_of_numbers)` strings into the
two message fields (lines 116-125); `deserialized_model` reads them back
with `json.loads` (lines 148-150).  The codec below reproduces Python's
text layout for numeric array literals: `[` , the entries separated by
`, `, `]`; integers as decimal numerals, floats as (sign, integer part,
`.`, fraction digits). -/

/-- Decimal digit value of a character (meaningful under `Char.isDigit`). -/
def charToDigit (c : Char) : ℕ := c.toNat - 48

/-- Big-endian decimal digit characters of `n` (empty for `0`). -/
def natToDigitChars (n : ℕ) : List Char :=
  ((Nat.digits 10 n).reverse).map Nat.digitChar

/-- The decimal numeral of a natural number, as Python prints it. -/
def natToken (n : ℕ) : List Char :=
  if n = 0 then [ '0'] else natToDigitChars n

/-- Parse a non-empty all-digit character run as a natural number. -/
def parseDigits (l : List Char) : Option ℕ :=
  if l.isEmpty then none
  else if l.all (fun c => c.isDigit) then
    some (l.foldl (fun n c => 10 * n + charToDigit c) 0)
  else none

/-- Parse a (possibly negative) decimal integer token, as `json.loads`
reads an entry of the `indices` field. -/
def parseIntToken (l : List Char) : Option ℤ :=
  if l.head? = some '-' then (parseDigits l.tail).map (fun (a : ℕ) => -(a : ℤ))
  else (parseDigits l).map (fun (a : ℕ) => (a : ℤ))

/-- Exact decimal rendering of a float value `q`, written with
`k = q.den` fraction digits (exact whenever `q.den ∣ 10 ^ q.den`, which
holds for every binary float).  Python's `repr` prints the shortest such
decimal; the two differ only by trailing zeros, which `json.loads`
ignores. -/
def ratToken (q : Scalar) : List Char :=
  let k := q.den
  let n := q.num.natAbs * (10 ^ k / q.den)
  let ds := natToDigitChars n
  let pds := List.replicate (k + 1 - ds.length) '0' ++ ds
  let body := pds.take (pds.length - k) ++ '.' :: pds.drop (pds.length - k)
  if q.num < 0 then '-' :: body else body

/-- Parse an unsigned JSON number token (integer, or integer part `.`
fraction digits) as an exact rational. -/
def parseUnsignedRat (l : List Char) : Option Scalar :=
  let ip := l.takeWhile (fun c => c.isDigit)
  let rest := l.dropWhile (fun c => c.isDigit)
  if rest = [] then (parseDigits ip).map (fun (a : ℕ) => (a : Scalar))
  else if rest.head? = some '.' then
    (parseDigits ip).bind (fun (a : ℕ) => (parseDigits rest.tail).map
      (fun (b : ℕ) => (a : Scalar) + (b : Scalar) / 10 ^ rest.tail.length))
  else none

/-- Parse a signed JSON number token as an exact rational, as `json.loads`
reads an entry of the `params` field. -/
def parseRatToken (l : List Char) : Option Scalar :=
  if l.head? = some '-' then (parseUnsignedRat l.tail).map (fun q => -q)
  else parseUnsignedRat l

/-- Join tokens with Python's default `json.dumps` item separator `, `. -/
def joinCommaSep : List (List Char) → List Char
  | [] => []
  | [t] => t
  | t :: ts => t ++ ',' :: ' ' :: joinCommaSep ts

/-- Split a character run at every `,`. -/
def splitOnComma : List Char → List (List Char)
  | [] => [[]]
  | c :: rest =>
      if c = ',' then [] :: splitOnComma rest
      else (c :: (splitOnComma rest).headD []) :: (splitOnComma rest).tail

/-- Encoding `json.dumps` of a numeric array: `[` tokens `]`. -/
def jsonDumpsTokens (ts : List (List Char)) : String :=
  String.mk ( '[' :: (joinCommaSep ts ++ [ ']']))

/-- Decoding `json.loads` of a numeric array literal: strip the brackets, split at
commas, drop the leading blank of each later item. -/
def jsonLoadsTokens (s : String) : Option (List (List Char)) :=
  if s.data.head? = some '[' ∧ s.data.getLast? = some ']' then
    let inner := s.data.tail.dropLast
    if inner.isEmpty then some []
    else some ((splitOnComma inner).map (List.dropWhile (fun c => c = ' ')))
  else none

/-- Line 116 + 125: `json.dumps(G_topk.numpy().tolist())`. -/
def jsonDumpsNatList (ns : List ℕ) : String :=
  jsonDumpsTokens (ns.map natToken)

/-- Line 117 + 125: `json.dumps(T_topk.numpy().tolist())`. -/
def jsonDumpsRatList (qs : List Scalar) : String :=
  jsonDumpsTokens (qs.map ratToken)

/-- Line 148: `json.loads(m["indices"])`, an integer array. -/
def jsonLoadsIntList (s : String) : Option (List ℤ) :=
  (jsonLoadsTokens s).bind (fun ts => ts.mapM parseIntToken)

/-- Line 150: `json.loads(m["params"])`, a float array. -/
def jsonLoadsRatList (s : String) : Option (List Scalar) :=
  (jsonLoadsTokens s).bind (fun ts => ts.mapM parseRatToken)

/-! ### serialized_model and deserialized_model -/

/-- The outgoing message `m`: the two text-encoded fields
(`PartialModel.py` lines 111-125). -/
structure WireMessage where
  indices : String
  params : String
deriving DecidableEq, Repr

/-- The method `PartialModel.serialized_model` (lines 80-129).  The `save_shared`
branch (lines 84-101) only writes a diagnostic file and is omitted.
Returns the message and the post-call object state (mutated by
`extract_top_gradients`). -/
def serializedModel (pm : PartialModel) :
    Except PMError (WireMessage × PartialModel) :=
  match extractTopGradients pm with
  | Except.error e => Except.error e
  | Except.ok (r, pm') =>
      let T := pm'.model.paramsFlat
      let ttopk := r.2.map (fun i => T.getD i 0)
      if pm'.dict_ordered = false then Except.error PMError.NotImplementedError
      else Except.ok
        ({ indices := jsonDumpsNatList r.2, params := jsonDumpsRatList ttopk }, pm')

/-- Resolve a torch index into a vector of length `n`: negative indices
address from the end. -/
def resolveIndex (n : ℕ) (i : ℤ) : ℕ :=
  if i < 0 then ((n : ℤ) + i).toNat else i.toNat

/-- torch bounds check for indexing a vector of length `n`:
`-n ≤ i < n`. -/
def inRangeIdx (n : ℕ) (i : ℤ) : Bool :=
  decide (-(n : ℤ) ≤ i) && decide (i < (n : ℤ))

/-- torch broadcasting of the value tensor against the index shape: a
single value is repeated for every index; otherwise the values are used
as they are. -/
def broadcastVals (idx : List ℤ) (vals : List Scalar) : List Scalar :=
  if vals.length = 1 then idx.map (fun _ => vals.getD 0 0) else vals

/-- Lines 149-150: the debug log on line 149 already reads
`T[index_tensor]`, so an out-of-bounds index raises before the
assignment `T[index_tensor] = torch.tensor(values)` on line 150
validates the value shape.  Hence: fails with an index error unless
every index lies in `[-N, N)`; then fails with a shape error unless the
value count equals the index count or is `1` (broadcast); otherwise
writes the pairs left to right (later duplicate indices overwrite
earlier ones). -/
def torchIndexAssign (T : List Scalar) (idx : List ℤ) (vals : List Scalar) :
    Except PMError (List Scalar) :=
  if idx.all (fun i => inRangeIdx T.length i) then
    if vals.length = idx.length ∨ vals.length = 1 then
      Except.ok ((idx.zip (broadcastVals idx vals)).foldl
        (fun t p => t.set (resolveIndex T.length p.1) p.2) T)
    else Except.error PMError.ShapeMismatch
  else Except.error PMError.IndexOutOfRange

/-- Lines 152-156: slice the merged flat vector back by the recorded
per-key lengths and reshape each slice to the recorded shape
(`state_dict[key] = T[start_index:end_index].reshape(shapes[i])`). -/
def unflattenStateDict : StateDict → List Scalar → StateDict
  | [], _ => []
  | (key, t) :: rest, T =>
      (key, { shape := t.shape, data := T.take t.data.length }) ::
        unflattenStateDict rest (T.drop t.data.length)

/-- The method `PartialModel.deserialized_model` (lines 131-158): re-reads the local
`state_dict`, rebuilds the flat parameter vector by concatenation
(`torch.cat` allocates fresh storage), decodes the two fields, writes the
update into that fresh copy, and slices it back into a newly built
structured collection.  The object state is returned unchanged: no step
writes into the model's own parameter tensors.  (When a message is bad
in several ways at once the source raises whichever error its line
order reaches first; the model fixes the order parse-indices /
parse-params / bounds / shape, which agrees with the source except when
an unparseable `params` field is combined with an out-of-range index.) -/
def deserializedModel (pm : PartialModel) (m : WireMessage) :
    Except PMError (StateDict × PartialModel) :=
  if pm.dict_ordered = false then Except.error PMError.NotImplementedError
  else
    match jsonLoadsIntList m.indices, jsonLoadsRatList m.params with
    | some idx, some vals =>
        match torchIndexAssign (flattenStateDict pm.model.state_dict) idx vals with
        | Except.error e => Except.error e
        | Except.ok T' => Except.ok (unflattenStateDict pm.model.state_dict T', pm)
    | _, _ => Except.error PMError.MalformedMessage

/-! ### Helper lemmas: rounding -/

theorem mkRat_one_two_eq : (mkRat 1 2 : ℚ) = 1 / 2 := by
  norm_num [Rat.mkRat_eq_div]

/-- Rounding a natural number returns it. -/
theorem pyRound_natCast (n : ℕ) : pyRound (n : ℚ) = (n : ℤ) := by
  unfold pyRound
  rw [mkRat_one_two_eq, Int.fract_natCast, Int.floor_natCast]
  norm_num

/-- Rounding never overshoots an integer bound from below. -/
theorem pyRound_le_of_le {q : ℚ} {n : ℕ} (h : q ≤ (n : ℚ)) : pyRound q ≤ (n : ℤ) := by
  have hfl : ⌊q⌋ ≤ (n : ℤ) := by
    have := Int.floor_le_floor h
    rwa [Int.floor_natCast] at this
  unfold pyRound
  rw [mkRat_one_two_eq]
  split_ifs with h1 h2 h3
  · exact hfl
  all_goals {
    have hfr : (1 : ℚ) / 2 ≤ Int.fract q := le_of_not_lt h1
    have hq : (⌊q⌋ : ℚ) + 1 / 2 ≤ q := by
      have := Int.floor_add_fract q
      linarith
    have : (⌊q⌋ : ℚ) < (n : ℚ) := by linarith
    have : ⌊q⌋ < (n : ℤ) := by exact_mod_cast this
    omega }

/-! ### Helper lemmas: top-k selection -/

theorem topk_le_total (w : List Scalar) :
    ∀ a b : ℕ, (decide (w.getD b 0 ≤ w.getD a 0) ||
      decide (w.getD a 0 ≤ w.getD b 0)) = true := by
  intro a b
  simp only [Bool.or_eq_true, decide_eq_true_eq]
  exact le_total _ _

theorem topk_le_trans (w : List Scalar) :
    ∀ a b c : ℕ, decide (w.getD b 0 ≤ w.getD a 0) = true →
      decide (w.getD c 0 ≤ w.getD b 0) = true →
      decide (w.getD c 0 ≤ w.getD a 0) = true := by
  intro a b c h1 h2
  rw [decide_eq_true_eq] at *
  exact le_trans h2 h1

theorem topkIndices_perm_aux (w : List Scalar) :
    ((List.range w.length).mergeSort
      (fun i j => decide (w.getD j 0 ≤ w.getD i 0))).Perm (List.range w.length) :=
  List.mergeSort_perm _ _

theorem topkIndices_length (w : List Scalar) {k : ℕ} (hk : k ≤ w.length) :
    (topkIndices w k).length = k := by
  unfold topkIndices
  rw [List.length_take, List.length_mergeSort, List.length_range]
  omega

theorem topkIndices_nodup (w : List Scalar) (k : ℕ) : (topkIndices w k).Nodup :=
  List.Nodup.sublist (List.take_sublist _ _)
    ((topkIndices_perm_aux w).symm.nodup (List.nodup_range _))

theorem topkIndices_mem (w : List Scalar) (k : ℕ) {i : ℕ}
    (h : i ∈ topkIndices w k) : i < w.length := by
  have h1 : i ∈ (List.range w.length).mergeSort
      (fun i j => decide (w.getD j 0 ≤ w.getD i 0)) :=
    List.mem_of_mem_take h
  rw [(topkIndices_perm_aux w).mem_iff, List.mem_range] at h1
  exact h1

/-- The selected indices dominate every unselected position. -/
theorem topkIndices_maximal (w : List Scalar) (k : ℕ) {i j : ℕ}
    (hi : i ∈ topkIndices w k) (hj : j < w.length) (hj2 : j ∉ topkIndices w k) :
    w.getD j 0 ≤ w.getD i 0 := by
  set le := fun i j : ℕ => decide (w.getD j 0 ≤ w.getD i 0) with hle
  set s := (List.range w.length).mergeSort le with hs
  have hsorted : s.Pairwise (fun a b => le a b = true) :=
    List.sorted_mergeSort (topk_le_trans w) (topk_le_total w) _
  have hjs : j ∈ s := by
    rw [(topkIndices_perm_aux w).mem_iff, List.mem_range]; exact hj
  have hsplit : s.take k ++ s.drop k = s := List.take_append_drop k s
  have hpw := List.pairwise_append.mp (hsplit ▸ hsorted)
  have hjdrop : j ∈ s.drop k := by
    rcases (List.mem_append.mp (hsplit ▸ hjs)) with h | h
    · exact absurd h hj2
    · exact h
  have := hpw.2.2 i hi j hjdrop
  rwa [decide_eq_true_eq] at this

theorem topkIndices_perm_range (w : List Scalar) :
    (topkIndices w w.length).Perm (List.range w.length) := by
  unfold topkIndices
  have h : List.take w.length ((List.range w.length).mergeSort
        (fun i j => decide (w.getD j 0 ≤ w.getD i 0))) =
      (List.range w.length).mergeSort (fun i j => decide (w.getD j 0 ≤ w.getD i 0)) :=
    List.take_of_length_le (le_of_eq (by rw [List.length_mergeSort, List.length_range]))
  rw [h]
  exact topkIndices_perm_aux w

/-- Reading `getD` through `List.map abs`. -/
theorem getD_map_abs : ∀ (l : List Scalar) (i : ℕ),
    (l.map (fun x => |x|)).getD i 0 = |l.getD i 0|
  | [], i => by simp [List.getD]
  | a :: l, 0 => rfl
  | a :: l, i + 1 => getD_map_abs l i

/-- Claim C1: with `alpha ∈ (0, 1]` and a non-empty accumulation,
`extract_top_gradients` returns exactly `k = round(alpha * N)` distinct
flat positions of the accumulated delta vector, each in `[0, N)`, whose
absolute delta values dominate every unselected position; for
`alpha = 1` the selection is all of `[0, N)`, each index exactly once. -/
theorem extractTopGradients_selects_topk (pm : PartialModel)
    (h0 : 0 < pm.alpha) (h1 : pm.alpha ≤ 1)
    (hne : pm.model.accumulated_gradients ≠ []) :
    ∃ vals idx pm', extractTopGradients pm = Except.ok ((vals, idx), pm') ∧
      idx.length = (pyRound (pm.alpha * (pm.model.deltaFlat.length : ℚ))).toNat ∧
      idx.Nodup ∧
      (∀ i ∈ idx, i < pm.model.deltaFlat.length) ∧
      (∀ i ∈ idx, ∀ j, j < pm.model.deltaFlat.length → j ∉ idx →
        |pm.model.deltaFlat.getD j 0| ≤ |pm.model.deltaFlat.getD i 0|) ∧
      (pm.alpha = 1 → idx.Perm (List.range pm.model.deltaFlat.length)) := by
  have hlen : 0 < pm.model.accumulated_gradients.length := List.length_pos.mpr hne
  set delta := pm.model.deltaFlat with hdelta
  set gabs := delta.map (fun x => |x|) with hgabs
  have hN : gabs.length = delta.length := List.length_map _ _
  set k := (pyRound (pm.alpha * (gabs.length : ℚ))).toNat with hk
  have hkN : k ≤ gabs.length := by
    rw [hk, Int.toNat_le]
    apply pyRound_le_of_le
    have : (0 : ℚ) ≤ (gabs.length : ℚ) := Nat.cast_nonneg _
    nlinarith
  have hext : extractTopGradients pm = Except.ok
      (((topkIndices gabs k).map (fun i => gabs.getD i 0), topkIndices gabs k),
        { pm with model := { pm.model with accumulated_gradients :=
            (gradientSum pm.model.accumulated_gradients ::
              pm.model.accumulated_gradients.tail) } }) := by
    rw [extractTopGradients, if_pos hlen]
    rfl
  refine ⟨_, _, _, hext, ?_, ?_, ?_, ?_, ?_⟩
  · rw [topkIndices_length gabs hkN, hk, hN]
  · exact topkIndices_nodup gabs k
  · intro i hi
    have := topkIndices_mem gabs k hi
    omega
  · intro i hi j hjN hj
    have := topkIndices_maximal gabs k hi (by omega) hj
    rwa [hgabs, getD_map_abs, getD_map_abs] at this
  · intro ha
    have : k = gabs.length := by
      rw [hk, ha, one_mul, pyRound_natCast]
      exact Int.toNat_natCast _
    rw [this, ← hN]
    exact topkIndices_perm_range gabs

/-- A concrete node used by witnesses: one 4-entry parameter tensor
`[7, 8, 9, 10]`, `alpha = 1/2`, and one recorded gradient snapshot
`[0.1, -5.0, 2.0, 0.01]` (the spec's §8 selection example). -/
def pmEx : PartialModel :=
  { alpha := mkRat 1 2, dict_ordered := true,
    model := { state_dict := [("w", { shape := [4], data := [7, 8, 9, 10] })],
               accumulated_gradients :=
                 [[("w", { shape := [4], data := [mkRat 1 10, -5, 2, mkRat 1 100] })]] } }

/-- Witness for C1: the hypotheses hold at `pmEx` and the theorem applies
there (`alpha = 1/2`, delta `[0.1, -5.0, 2.0, 0.01]`, so `k = 2`). -/
theorem extractTopGradients_selects_topk_witness :
    (0 < pmEx.alpha ∧ pmEx.alpha ≤ 1 ∧ pmEx.model.accumulated_gradients ≠ []) ∧
    (∃ vals idx pm', extractTopGradients pmEx = Except.ok ((vals, idx), pm') ∧
      idx.length = (pyRound (pmEx.alpha * (pmEx.model.deltaFlat.length : ℚ))).toNat ∧
      idx.Nodup ∧
      (∀ i ∈ idx, i < pmEx.model.deltaFlat.length) ∧
      (∀ i ∈ idx, ∀ j, j < pmEx.model.deltaFlat.length → j ∉ idx →
        |pmEx.model.deltaFlat.getD j 0| ≤ |pmEx.model.deltaFlat.getD i 0|) ∧
      (pmEx.alpha = 1 → idx.Perm (List.range pmEx.model.deltaFlat.length))) :=
  ⟨⟨by decide, by decide, by decide⟩,
    extractTopGradients_selects_topk pmEx (by decide) (by decide) (by decide)⟩

/-- The state mutation of `extract_top_gradients` only touches
`accumulated_gradients`; the parameter state and configuration are
untouched. -/
theorem extractTopGradients_preserves_params {pm : PartialModel}
    {r : List Scalar × List ℕ} {pm' : PartialModel}
    (h : extractTopGradients pm = Except.ok (r, pm')) :
    pm'.model.state_dict = pm.model.state_dict ∧
      pm'.dict_ordered = pm.dict_ordered ∧ pm'.alpha = pm.alpha := by
  rw [extractTopGradients] at h
  split at h
  · have e := Except.ok.inj h
    have e2 : pm' = { pm with model := { pm.model with accumulated_gradients :=
        (gradientSum pm.model.accumulated_gradients ::
          pm.model.accumulated_gradients.tail) } } :=
      (congrArg Prod.snd e).symm
    subst e2
    exact ⟨rfl, rfl, rfl⟩
  · exact absurd h (by simp)

/-- The vector `paramsFlat` only reads the parameter state. -/
theorem paramsFlat_congr {m m' : Model} (h : m.state_dict = m'.state_dict) :
    m.paramsFlat = m'.paramsFlat := by
  unfold Model.paramsFlat Model.parameters
  rw [h]

/-- Claim C2: in every message `serialized_model` builds, the `params`
field is the json encoding of the **current parameter** flat vector read
at the selected indices (and `indices` is the json encoding of those
indices) — the transmitted values come from `model.parameters()`, not
from the accumulated delta whose magnitudes drove the selection. -/
theorem serializedModel_params_are_current_parameters
    (pm : PartialModel) (msg : WireMessage) (pm' : PartialModel)
    (h : serializedModel pm = Except.ok (msg, pm')) :
    ∃ r, extractTopGradients pm = Except.ok (r, pm') ∧
      msg.indices = jsonDumpsNatList r.2 ∧
      msg.params = jsonDumpsRatList
        (r.2.map (fun i => pm.model.paramsFlat.getD i 0)) := by
  rw [serializedModel] at h
  split at h
  · exact absurd h (by simp)
  · rename_i r pm₀ heq
    split at h
    · exact absurd h (by simp)
    · have hinj := Except.ok.inj h
      have hpm : pm₀ = pm' := congrArg Prod.snd hinj
      have hmsg : msg = WireMessage.mk (jsonDumpsNatList r.2)
          (jsonDumpsRatList (r.2.map (fun i => pm₀.model.paramsFlat.getD i 0))) :=
        (congrArg Prod.fst hinj).symm
      have hsd := (extractTopGradients_preserves_params heq).1
      have hpf : pm₀.model.paramsFlat = pm.model.paramsFlat := paramsFlat_congr hsd
      refine ⟨r, hpm ▸ heq, ?_, ?_⟩
      · simp only [hmsg]
      · simp only [hmsg, hpf]

/-- Witness for C2 at `pmEx`: the selected indices are `[1, 2]` and the
transmitted values are the parameter values `8.0, 9.0` there, not the
delta values `-5.0, 2.0`. -/
theorem serializedModel_params_witness :
    (serializedModel pmEx =
      Except.ok ({ indices := "[1, 2]", params := "[8.0, 9.0]" }, pmEx)) ∧
    (∃ r, extractTopGradients pmEx = Except.ok (r, pmEx) ∧
      ({ indices := "[1, 2]", params := "[8.0, 9.0]"} : WireMessage).indices =
        jsonDumpsNatList r.2 ∧
      ({ indices := "[1, 2]", params := "[8.0, 9.0]"} : WireMessage).params =
        jsonDumpsRatList (r.2.map (fun i => pmEx.model.paramsFlat.getD i 0))) :=
  ⟨by with_unfolding_all rfl,
    serializedModel_params_are_current_parameters pmEx
      { indices := "[1, 2]", params := "[8.0, 9.0]" } pmEx
      (by with_unfolding_all rfl)⟩

/-! ### The summation loop (claims C7, C8, C9) -/

/-- Modelled from the spec: the elementwise, key-by-key sum of two
key-aligned delta dicts ("`sum()` elementwise-sums all recorded deltas
key-by-key"). -/
def dictZipAdd (a b : StateDict) : StateDict :=
  List.zipWith (fun x y => (x.1, x.2.add y.2)) a b

theorem updateAdd_not_mem {gs : StateDict} {key : String} (t : Tensor)
    (h : key ∉ gs.map Prod.fst) : updateAdd gs key t = gs := by
  induction gs with
  | nil => rfl
  | cons e gs ih =>
      simp only [List.map_cons, List.mem_cons, not_or] at h
      show (if e.1 = key then (e.1, e.2.add t) else e) :: updateAdd gs key t = e :: gs
      rw [if_neg (fun he => h.1 he.symm), ih h.2]

theorem foldl_updateAdd_cons {d : List (String × Tensor)} {e : String × Tensor}
    {gs : StateDict} (h : e.1 ∉ d.map Prod.fst) :
    d.foldl (fun g kv => updateAdd g kv.1 kv.2) (e :: gs) =
      e :: d.foldl (fun g kv => updateAdd g kv.1 kv.2) gs := by
  induction d generalizing gs with
  | nil => rfl
  | cons kv d ih =>
      simp only [List.map_cons, List.mem_cons, not_or] at h
      simp only [List.foldl_cons]
      rw [show updateAdd (e :: gs) kv.1 kv.2 =
        (if e.1 = kv.1 then (e.1, e.2.add kv.2) else e) :: updateAdd gs kv.1 kv.2 from rfl]
      rw [if_neg h.1, ih h.2]

/-- The source's `for key in d: gradient_sum[key] += d[key]` loop equals
the spec's key-by-key elementwise sum on key-aligned dicts. -/
theorem foldl_updateAdd_eq_zipAdd {gs d : StateDict}
    (hk : d.map Prod.fst = gs.map Prod.fst) (hnd : (gs.map Prod.fst).Nodup) :
    d.foldl (fun g kv => updateAdd g kv.1 kv.2) gs = dictZipAdd gs d := by
  induction gs generalizing d with
  | nil =>
      have : d = [] := by
        cases d with
        | nil => rfl
        | cons kv d' => simp at hk
      subst this; rfl
  | cons e gs ih =>
      cases d with
      | nil => simp at hk
      | cons kv d' =>
          simp only [List.map_cons, List.cons.injEq] at hk
          simp only [List.map_cons, List.nodup_cons] at hnd
          simp only [List.foldl_cons]
          have h1 : updateAdd (e :: gs) kv.1 kv.2 = (e.1, e.2.add kv.2) :: gs := by
            show (if e.1 = kv.1 then (e.1, e.2.add kv.2) else e) ::
              updateAdd gs kv.1 kv.2 = _
            rw [if_pos hk.1.symm, updateAdd_not_mem kv.2 (hk.1 ▸ hnd.1)]
          rw [h1, foldl_updateAdd_cons (by rw [hk.2]; exact hnd.1), ih hk.2 hnd.2]
          rfl

theorem dictZipAdd_keys {gs d : StateDict}
    (h : d.map Prod.fst = gs.map Prod.fst) :
    (dictZipAdd gs d).map Prod.fst = gs.map Prod.fst := by
  induction gs generalizing d with
  | nil => rfl
  | cons e gs ih =>
      cases d with
      | nil => simp at h
      | cons kv d' =>
          simp only [List.map_cons, List.cons.injEq] at h
          show e.1 :: (dictZipAdd gs d').map Prod.fst = e.1 :: gs.map Prod.fst
          rw [ih h.2]

theorem foldl_gradientSum_aux {rest : List StateDict} {gs : StateDict}
    (hk : ∀ d ∈ rest, d.map Prod.fst = gs.map Prod.fst)
    (hnd : (gs.map Prod.fst).Nodup) :
    rest.foldl (fun g d => d.foldl (fun g kv => updateAdd g kv.1 kv.2) g) gs =
      rest.foldl dictZipAdd gs := by
  induction rest generalizing gs with
  | nil => rfl
  | cons d rest ih =>
      simp only [List.foldl_cons]
      rw [foldl_updateAdd_eq_zipAdd (hk d (List.mem_cons_self d rest)) hnd]
      exact ih
        (fun d' hd' => by
          rw [dictZipAdd_keys (hk d (List.mem_cons_self d rest))]
          exact hk d' (List.mem_cons_of_mem d hd'))
        (by rw [dictZipAdd_keys (hk d (List.mem_cons_self d rest))]; exact hnd)

/-- The loop result `gradient_sum` (lines 68-71) computes the fold of the
key-by-key elementwise sum over the recorded deltas. -/
theorem gradientSum_eq_foldl {d0 : StateDict} {rest : List StateDict}
    (hk : ∀ d ∈ rest, d.map Prod.fst = d0.map Prod.fst)
    (hnd : (d0.map Prod.fst).Nodup) :
    gradientSum (d0 :: rest) = rest.foldl dictZipAdd d0 := by
  show rest.foldl (fun g d => d.foldl (fun g kv => updateAdd g kv.1 kv.2) g) d0 =
    rest.foldl dictZipAdd d0
  exact foldl_gradientSum_aux hk hnd

/-- Claim C7: on a non-empty list of recorded deltas sharing one key
set (with no duplicate keys), the summation step returns the
elementwise, key-by-key sum of all recorded deltas. -/
theorem gradientSum_elementwise (d0 : StateDict) (rest : List StateDict)
    (hk : ∀ d ∈ rest, d.map Prod.fst = d0.map Prod.fst)
    (hnd : (d0.map Prod.fst).Nodup) :
    gradientSum (d0 :: rest) = rest.foldl dictZipAdd d0 :=
  gradientSum_eq_foldl hk hnd

/-- Witness for C7 at the spec's example: deltas `{a:1}, {a:2}, {a:3}`
sum to `{a:6}`. -/
theorem gradientSum_elementwise_witness :
    (∀ d ∈ [[(("a" : String), (Tensor.mk [1] [2]))], [("a", Tensor.mk [1] [3])]],
      d.map Prod.fst = [(("a" : String), Tensor.mk [1] [1])].map Prod.fst) ∧
    ([(("a" : String), Tensor.mk [1] [1])].map Prod.fst).Nodup ∧
    gradientSum [[(("a" : String), Tensor.mk [1] [1])], [("a", Tensor.mk [1] [2])],
        [("a", Tensor.mk [1] [3])]] =
      [[(("a" : String), (Tensor.mk [1] [2]))], [("a", Tensor.mk [1] [3])]].foldl
        dictZipAdd [(("a" : String), Tensor.mk [1] [1])] ∧
    gradientSum [[(("a" : String), Tensor.mk [1] [1])], [("a", Tensor.mk [1] [2])],
        [("a", Tensor.mk [1] [3])]] = [("a", Tensor.mk [1] [6])] :=
  ⟨by decide, by decide,
    gradientSum_elementwise _ _ (by decide) (by decide),
    by with_unfolding_all rfl⟩

/-- Claim C8: the `assert` on line 67 makes `extract_top_gradients` fail
exactly when the accumulated-delta list is empty (no `record` since the
last reset); no zero or empty selection is returned in that case. -/
theorem extractTopGradients_empty_iff (pm : PartialModel) :
    extractTopGradients pm = Except.error PMError.EmptyAccumulation ↔
      pm.model.accumulated_gradients = [] := by
  constructor
  · intro h
    rw [extractTopGradients] at h
    split at h
    · exact absurd h (by simp)
    · rename_i hlen
      rw [← List.length_eq_zero]
      omega
  · intro h
    rw [extractTopGradients, if_neg]
    simp [h]

/-- Claim C9: the summation step is not side-effect free: with at least
two recorded deltas, after `extract_top_gradients` the first entry of
`accumulated_gradients` holds the elementwise sum of all recorded
deltas (the later entries are untouched), not the first delta as
recorded. -/
theorem extractTopGradients_mutates_first (pm : PartialModel)
    (d0 : StateDict) (rest : List StateDict)
    (hacc : pm.model.accumulated_gradients = d0 :: rest)
    (h2 : rest ≠ [])
    (hk : ∀ d ∈ rest, d.map Prod.fst = d0.map Prod.fst)
    (hnd : (d0.map Prod.fst).Nodup) :
    ∃ r pm', extractTopGradients pm = Except.ok (r, pm') ∧
      pm'.model.accumulated_gradients = (rest.foldl dictZipAdd d0) :: rest := by
  have hlen : 0 < pm.model.accumulated_gradients.length := by
    rw [hacc]; simp
  refine ⟨_, _, by rw [extractTopGradients, if_pos hlen], ?_⟩
  show gradientSum pm.model.accumulated_gradients ::
    pm.model.accumulated_gradients.tail = _
  rw [hacc]
  rw [show (d0 :: rest).tail = rest from rfl, gradientSum_eq_foldl hk hnd]

/-- Witness for C9: two recorded deltas `{a:1}, {a:2}`; after the call
the first accumulator entry is `{a:3}`. -/
theorem extractTopGradients_mutates_first_witness :
    (([[(("a" : String), Tensor.mk [1] [2])]] : List StateDict) ≠ []) ∧
    (∃ r pm', extractTopGradients
        ⟨1, true, ⟨[("a", Tensor.mk [1] [0])],
          [[("a", Tensor.mk [1] [1])], [("a", Tensor.mk [1] [2])]]⟩⟩ =
        Except.ok (r, pm') ∧
      pm'.model.accumulated_gradients =
        ([[(("a" : String), Tensor.mk [1] [2])]].foldl dictZipAdd
          [("a", Tensor.mk [1] [1])]) :: [[("a", Tensor.mk [1] [2])]]) :=
  ⟨by decide,
    extractTopGradients_mutates_first _ _ _ (by decide) (by decide)
      (by decide) (by decide)⟩

/-! ### The merge step (claim C3) -/

theorem getD_set_eq (l : List Scalar) (i : ℕ) (a : Scalar) (h : i < l.length) :
    (l.set i a).getD i 0 = a := by
  rw [List.getD_eq_getElem?_getD, List.getElem?_set_self h]
  rfl

theorem getD_set_ne (l : List Scalar) {i j : ℕ} (a : Scalar) (h : i ≠ j) :
    (l.set i a).getD j 0 = l.getD j 0 := by
  rw [List.getD_eq_getElem?_getD, List.getElem?_set_ne h, ← List.getD_eq_getElem?_getD]

theorem foldl_set_length (ps : List (ℕ × Scalar)) (T : List Scalar) :
    (ps.foldl (fun t p => t.set p.1 p.2) T).length = T.length := by
  induction ps generalizing T with
  | nil => rfl
  | cons p ps ih => rw [List.foldl_cons, ih, List.length_set]

/-- After writing `(position, value)` pairs left to right, a position
holds the value of the *last* pair naming it, and its prior value if no
pair names it. -/
theorem foldl_set_getD (ps : List (ℕ × Scalar)) (T : List Scalar) (j : ℕ)
    (hj : j < T.length) :
    (ps.foldl (fun t p => t.set p.1 p.2) T).getD j 0 =
      ((ps.filter (fun p => p.1 == j)).getLast?).elim (T.getD j 0) Prod.snd := by
  induction ps using List.reverseRecOn with
  | nil => rfl
  | append_singleton qs p ih =>
      rw [List.foldl_concat, List.filter_append]
      by_cases hpj : p.1 = j
      · rw [hpj, getD_set_eq _ _ _ (by rw [foldl_set_length]; exact hj)]
        have : List.filter (fun p => p.1 == j) [p] = [p] := by
          simp [List.filter_cons, hpj]
        rw [this, List.getLast?_concat]
        rfl
      · rw [getD_set_ne _ _ hpj, ih]
        have : List.filter (fun p => p.1 == j) [p] = [] := by
          simp [List.filter_cons, hpj]
        rw [this, List.append_nil]

theorem zip_broadcast_eq {idx : List ℤ} {vals : List Scalar}
    (h : vals.length = idx.length) :
    idx.zip (broadcastVals idx vals) = idx.zip vals := by
  unfold broadcastVals
  split
  · rename_i h1
    rw [h1] at h
    obtain ⟨v, hv⟩ := List.length_eq_one.mp h1
    obtain ⟨i, hi⟩ := List.length_eq_one.mp h.symm
    subst hv hi
    rfl
  · rfl

/-- Claim C3: for a valid update (value count equals index count, all
indices in `[0, N)`), the merge writes `local[index] = value` pair by
pair in the order the pairs appear: the final value at `j` is the value
of the last pair naming `j`, and every position named by no pair keeps
exactly its prior value; the vector length never changes. -/
theorem torchIndexAssign_last_write_wins (T : List Scalar) (idx : List ℤ)
    (vals : List Scalar) (hlen : vals.length = idx.length)
    (hrange : ∀ i ∈ idx, 0 ≤ i ∧ i < (T.length : ℤ)) :
    ∃ T', torchIndexAssign T idx vals = Except.ok T' ∧
      T'.length = T.length ∧
      ∀ j : ℕ, j < T.length →
        T'.getD j 0 =
          (((idx.zip vals).filter (fun p => p.1 == (j : ℤ))).getLast?).elim
            (T.getD j 0) Prod.snd := by
  have hall : (idx.all (fun i => inRangeIdx T.length i)) = true := by
    rw [List.all_eq_true]
    intro i hi
    have := hrange i hi
    unfold inRangeIdx
    simp only [Bool.and_eq_true, decide_eq_true_eq]
    omega
  have hok : torchIndexAssign T idx vals = Except.ok
      ((idx.zip (broadcastVals idx vals)).foldl
        (fun t p => t.set (resolveIndex T.length p.1) p.2) T) := by
    rw [torchIndexAssign, if_pos hall, if_pos (Or.inl hlen)]
  rw [hok, zip_broadcast_eq hlen]
  set ps := (idx.zip vals).map (fun p => (resolveIndex T.length p.1, p.2)) with hps
  have hfold : (idx.zip vals).foldl
      (fun t p => t.set (resolveIndex T.length p.1) p.2) T =
      ps.foldl (fun t p => t.set p.1 p.2) T := by
    rw [hps, List.foldl_map]
  refine ⟨_, rfl, ?_, ?_⟩
  · rw [hfold, foldl_set_length]
  · intro j hj
    rw [hfold, foldl_set_getD _ _ _ hj, hps, List.filter_map, List.getLast?_map]
    have hfe : List.filter ((fun p : ℕ × Scalar => p.1 == j) ∘
        (fun p : ℤ × Scalar => (resolveIndex T.length p.1, p.2))) (idx.zip vals) =
        List.filter (fun p : ℤ × Scalar => p.1 == (j : ℤ)) (idx.zip vals) := by
      apply List.filter_congr
      intro p hp
      have h0 : 0 ≤ p.1 ∧ p.1 < (T.length : ℤ) := by
        rcases p with ⟨a, b⟩
        exact hrange a (List.of_mem_zip hp).1
      simp only [Function.comp_apply, resolveIndex, if_neg (by omega : ¬ p.1 < 0)]
      rw [Bool.eq_iff_iff, beq_iff_eq, beq_iff_eq]
      omega
    rw [hfe]
    cases (List.filter (fun p : ℤ × Scalar => p.1 == (j : ℤ)) (idx.zip vals)).getLast? with
    | none => rfl
    | some p => rfl

/-- Witness for C3 at the spec's example: writing `(3, 9.0)` then
`(3, 7.0)` to `[0, 0, 0, 0]` yields `7.0` at position `3`
(last-write-wins), the other positions unchanged. -/
theorem torchIndexAssign_last_write_wins_witness :
    (([(9 : Scalar), 7] : List Scalar).length = ([(3 : ℤ), 3] : List ℤ).length) ∧
    (∀ i ∈ ([(3 : ℤ), 3] : List ℤ), 0 ≤ i ∧
      i < (([(0 : Scalar), 0, 0, 0] : List Scalar).length : ℤ)) ∧
    (∃ T', torchIndexAssign [(0 : Scalar), 0, 0, 0] [(3 : ℤ), 3] [(9 : Scalar), 7] =
        Except.ok T' ∧
      T'.length = ([(0 : Scalar), 0, 0, 0] : List Scalar).length ∧
      ∀ j : ℕ, j < ([(0 : Scalar), 0, 0, 0] : List Scalar).length →
        T'.getD j 0 =
          (((([(3 : ℤ), 3] : List ℤ).zip ([(9 : Scalar), 7] : List Scalar)).filter
            (fun p => p.1 == (j : ℤ))).getLast?).elim
            (([(0 : Scalar), 0, 0, 0] : List Scalar).getD j 0) Prod.snd) ∧
    torchIndexAssign [(0 : Scalar), 0, 0, 0] [(3 : ℤ), 3] [(9 : Scalar), 7] =
      Except.ok [0, 0, 0, 7] :=
  ⟨by decide, by decide,
    torchIndexAssign_last_write_wins _ _ _ (by decide) (by decide),
    by with_unfolding_all rfl⟩

/-! ### Decode-time error behavior (claim C4) -/

/-- Claim C4 counterexample: the claim asserts that decoding fails
whenever the index and value sequences differ in length and whenever an
index lies outside `[0, N)`.  On a 3-entry model: (i) the message with
indices `[0, 1]` and params `[5.0]` (lengths 2 and 1) is *accepted* —
torch broadcasts the single value — and (ii) the message with index
`[-1]` (outside `[0, 3)`) and params `[5.5]` is *accepted*, writing the
last position. -/
theorem deserializedModel_malformed_accepted_cex :
    jsonLoadsIntList "[0, 1]" = some [0, 1] ∧
    jsonLoadsRatList "[5.0]" = some [5] ∧
    deserializedModel ⟨1, true, ⟨[("w", Tensor.mk [3] [1, 2, 3])], []⟩⟩
        ⟨"[0, 1]", "[5.0]"⟩ =
      Except.ok ([("w", Tensor.mk [3] [5, 5, 3])],
        ⟨1, true, ⟨[("w", Tensor.mk [3] [1, 2, 3])], []⟩⟩) ∧
    jsonLoadsIntList "[-1]" = some [-1] ∧
    deserializedModel ⟨1, true, ⟨[("w", Tensor.mk [3] [1, 2, 3])], []⟩⟩
        ⟨"[-1]", "[5.5]"⟩ =
      Except.ok ([("w", Tensor.mk [3] [1, 2, mkRat 11 2])],
        ⟨1, true, ⟨[("w", Tensor.mk [3] [1, 2, 3])], []⟩⟩) :=
  ⟨by with_unfolding_all rfl, by with_unfolding_all rfl, by with_unfolding_all rfl,
    by with_unfolding_all rfl, by with_unfolding_all rfl⟩

/-- Claim C4 as amended: on a well-parsed message, `deserialized_model`
raises an index error exactly when some decoded index lies outside
`[-N, N)` (negative indices address from the end and are accepted); it
raises a shape error exactly when the indices are in range but the
value count neither equals the index count nor is `1` (a single value
broadcasts); otherwise it succeeds without touching the object state.
Nothing in this code catches these errors: they propagate to the
caller. -/
theorem deserializedModel_error_characterization (pm : PartialModel)
    (m : WireMessage) (idx : List ℤ) (vals : List Scalar)
    (hord : pm.dict_ordered = true)
    (hidx : jsonLoadsIntList m.indices = some idx)
    (hvals : jsonLoadsRatList m.params = some vals) :
    (deserializedModel pm m = Except.error PMError.IndexOutOfRange ↔
      ¬ (idx.all (fun i =>
          inRangeIdx (flattenStateDict pm.model.state_dict).length i) = true)) ∧
    (deserializedModel pm m = Except.error PMError.ShapeMismatch ↔
      ((idx.all (fun i =>
          inRangeIdx (flattenStateDict pm.model.state_dict).length i) = true) ∧
        ¬ (vals.length = idx.length ∨ vals.length = 1))) ∧
    ((∃ sd, deserializedModel pm m = Except.ok (sd, pm)) ↔
      ((idx.all (fun i =>
          inRangeIdx (flattenStateDict pm.model.state_dict).length i) = true) ∧
        (vals.length = idx.length ∨ vals.length = 1))) := by
  have hred : deserializedModel pm m =
      match torchIndexAssign (flattenStateDict pm.model.state_dict) idx vals with
      | Except.error e => Except.error e
      | Except.ok T' => Except.ok (unflattenStateDict pm.model.state_dict T', pm) := by
    rw [deserializedModel, if_neg (by simp [hord]), hidx, hvals]
  rw [torchIndexAssign] at hred
  by_cases hb : (idx.all (fun i =>
      inRangeIdx (flattenStateDict pm.model.state_dict).length i)) = true
  · rw [if_pos hb] at hred
    by_cases hl : vals.length = idx.length ∨ vals.length = 1
    · rw [if_pos hl] at hred
      refine ⟨?_, ?_, ?_⟩
      · simp [hred, hb]
      · simp [hred, hl]
      · simp [hred, hb, hl]
    · rw [if_neg hl] at hred
      refine ⟨?_, ?_, ?_⟩
      · simp [hred, hb]
      · simp [hred, hb, hl]
      · simp [hred, hl]
  · rw [if_neg hb] at hred
    refine ⟨?_, ?_, ?_⟩
    · simp [hred, hb]
    · simp [hred, hb]
    · simp [hred, hb]

/-- Witness for the amended C4 on concrete messages: an out-of-range
index `[3]` on a 3-entry model errors with the index error. -/
theorem deserializedModel_error_characterization_witness :
    ((⟨1, true, ⟨[("w", Tensor.mk [3] [1, 2, 3])], []⟩⟩ :
        PartialModel).dict_ordered = true) ∧
    jsonLoadsIntList "[3]" = some [3] ∧
    jsonLoadsRatList "[5.5]" = some [mkRat 11 2] ∧
    ((deserializedModel ⟨1, true, ⟨[("w", Tensor.mk [3] [1, 2, 3])], []⟩⟩
        ⟨"[3]", "[5.5]"⟩ = Except.error PMError.IndexOutOfRange ↔
      ¬ (([(3 : ℤ)].all (fun i => inRangeIdx (flattenStateDict
          (⟨1, true, ⟨[("w", Tensor.mk [3] [1, 2, 3])], []⟩⟩ :
            PartialModel).model.state_dict).length i)) = true)) ∧
    (deserializedModel ⟨1, true, ⟨[("w", Tensor.mk [3] [1, 2, 3])], []⟩⟩
        ⟨"[3]", "[5.5]"⟩ = Except.error PMError.ShapeMismatch ↔
      ((([(3 : ℤ)].all (fun i => inRangeIdx (flattenStateDict
          (⟨1, true, ⟨[("w", Tensor.mk [3] [1, 2, 3])], []⟩⟩ :
            PartialModel).model.state_dict).length i)) = true) ∧
        ¬ (([mkRat 11 2] : List Scalar).length = ([(3 : ℤ)] : List ℤ).length ∨
          ([mkRat 11 2] : List Scalar).length = 1))) ∧
    ((∃ sd, deserializedModel ⟨1, true, ⟨[("w", Tensor.mk [3] [1, 2, 3])], []⟩⟩
        ⟨"[3]", "[5.5]"⟩ = Except.ok
          (sd, ⟨1, true, ⟨[("w", Tensor.mk [3] [1, 2, 3])], []⟩⟩)) ↔
      ((([(3 : ℤ)].all (fun i => inRangeIdx (flattenStateDict
          (⟨1, true, ⟨[("w", Tensor.mk [3] [1, 2, 3])], []⟩⟩ :
            PartialModel).model.state_dict).length i)) = true) ∧
        (([mkRat 11 2] : List Scalar).length = ([(3 : ℤ)] : List ℤ).length ∨
          ([mkRat 11 2] : List Scalar).length = 1)))) :=
  ⟨rfl, by with_unfolding_all rfl, by with_unfolding_all rfl,
    deserializedModel_error_characterization _ _ [(3 : ℤ)] [mkRat 11 2] rfl
      (by with_unfolding_all rfl) (by with_unfolding_all rfl)⟩

/-! ### Flatten / unflatten round-trip (claim C6) -/

theorem unflattenStateDict_flatten : ∀ (base P : StateDict),
    List.Forall₂ (fun a b : String × Tensor =>
      a.1 = b.1 ∧ a.2.shape = b.2.shape) base P →
    (∀ kv ∈ base, kv.2.wf) → (∀ kv ∈ P, kv.2.wf) →
    unflattenStateDict base (flattenStateDict P) = P
  | [], [], _, _, _ => rfl
  | [], _ :: _, hm, _, _ => nomatch hm
  | _ :: _, [], hm, _, _ => nomatch hm
  | ⟨ka, sa, da⟩ :: base', ⟨kb, sb, db⟩ :: P', hm, hbase, hP => by
      obtain ⟨⟨hk, hs⟩, h₂⟩ := List.forall₂_cons.mp hm
      simp only at hk hs
      have hwa : da.length = sa.prod := hbase _ (List.mem_cons_self _ _)
      have hwb : db.length = sb.prod := hP _ (List.mem_cons_self _ _)
      have hlen : da.length = db.length := by rw [hwa, hwb, hs]
      show (ka, Tensor.mk sa ((db ++ flattenStateDict P').take da.length)) ::
          unflattenStateDict base' ((db ++ flattenStateDict P').drop da.length) =
        (kb, Tensor.mk sb db) :: P'
      rw [hlen, hk, hs, List.take_left, List.drop_left,
        unflattenStateDict_flatten base' P' h₂
          (fun kv hkv => hbase kv (List.mem_cons_of_mem _ hkv))
          (fun kv hkv => hP kv (List.mem_cons_of_mem _ hkv))]

/-- Claim C6: for every structured collection `P` whose key order and
per-key shapes match the captured baseline (well-formed tensors on both
sides), slicing the concatenated flat vector of `P` by the recorded
per-key lengths and reshaping to the recorded shapes — the
`deserialized_model` reconstruction loop — reproduces `P` exactly. -/
theorem unflatten_flatten_id (base P : StateDict)
    (hmatch : List.Forall₂ (fun a b : String × Tensor =>
      a.1 = b.1 ∧ a.2.shape = b.2.shape) base P)
    (hbase : ∀ kv ∈ base, kv.2.wf) (hP : ∀ kv ∈ P, kv.2.wf) :
    unflattenStateDict base (flattenStateDict P) = P :=
  unflattenStateDict_flatten base P hmatch hbase hP

/-- Witness for C6: a two-tensor collection (a `2×2` weight and a
`2`-vector bias) round-trips through flatten / unflatten against a
baseline with equal keys and shapes but different values. -/
theorem unflatten_flatten_id_witness :
    List.Forall₂ (fun a b : String × Tensor =>
      a.1 = b.1 ∧ a.2.shape = b.2.shape)
      [(("w" : String), Tensor.mk [2, 2] [0, 0, 0, 0]),
        ("b", Tensor.mk [2] [0, 0])]
      [(("w" : String), Tensor.mk [2, 2] [1, 2, 3, 4]),
        ("b", Tensor.mk [2] [5, 6])] ∧
    (∀ kv ∈ [(("w" : String), Tensor.mk [2, 2] [0, 0, 0, 0]),
        ("b", Tensor.mk [2] [0, 0])], kv.2.wf) ∧
    (∀ kv ∈ [(("w" : String), Tensor.mk [2, 2] [1, 2, 3, 4]),
        ("b", Tensor.mk [2] [5, 6])], kv.2.wf) ∧
    unflattenStateDict
      [(("w" : String), Tensor.mk [2, 2] [0, 0, 0, 0]),
        ("b", Tensor.mk [2] [0, 0])]
      (flattenStateDict [(("w" : String), Tensor.mk [2, 2] [1, 2, 3, 4]),
        ("b", Tensor.mk [2] [5, 6])]) =
      [(("w" : String), Tensor.mk [2, 2] [1, 2, 3, 4]),
        ("b", Tensor.mk [2] [5, 6])] :=
  ⟨List.Forall₂.cons ⟨rfl, rfl⟩ (List.Forall₂.cons ⟨rfl, rfl⟩ List.Forall₂.nil),
    by decide, by decide,
    unflatten_flatten_id _ _
      (List.Forall₂.cons ⟨rfl, rfl⟩ (List.Forall₂.cons ⟨rfl, rfl⟩ List.Forall₂.nil))
      (by decide) (by decide)⟩

/-! ### deserialized_model mutates nothing (claim C10) -/

/-- Claim C10: decoding and merging an incoming message does not by
itself change the peer's live parameters: `deserialized_model` writes
only into the freshly `torch.cat`-allocated flat vector, and returns a
newly constructed collection sliced from it, leaving the object state —
in particular every tensor of `model.state_dict` — exactly as it was. -/
theorem deserializedModel_preserves_model (pm : PartialModel) (m : WireMessage)
    (sd' : StateDict) (pm' : PartialModel)
    (h : deserializedModel pm m = Except.ok (sd', pm')) :
    pm' = pm ∧ pm'.model.state_dict = pm.model.state_dict ∧
      ∃ idx vals T',
        jsonLoadsIntList m.indices = some idx ∧
        jsonLoadsRatList m.params = some vals ∧
        torchIndexAssign (flattenStateDict pm.model.state_dict) idx vals =
          Except.ok T' ∧
        sd' = unflattenStateDict pm.model.state_dict T' := by
  rw [deserializedModel] at h
  split at h
  · exact absurd h (by simp)
  · split at h
    · rename_i idx vals hidx hvals
      split at h
      · exact absurd h (by simp)
      · rename_i T' hT
        have e := Except.ok.inj h
        have hpm : pm' = pm := (congrArg Prod.snd e).symm
        have hsd : sd' = unflattenStateDict pm.model.state_dict T' :=
          (congrArg Prod.fst e).symm
        exact ⟨hpm, by rw [hpm], idx, vals, T', hidx, hvals, hT, hsd⟩
    · exact absurd h (by simp)

/-- Witness for C10: merging the message `([0], [9.0])` into a 3-entry
model returns the merged collection and the untouched object state. -/
theorem deserializedModel_preserves_model_witness :
    deserializedModel ⟨1, true, ⟨[("w", Tensor.mk [3] [1, 2, 3])], []⟩⟩
        ⟨"[0]", "[9.0]"⟩ =
      Except.ok ([("w", Tensor.mk [3] [9, 2, 3])],
        ⟨1, true, ⟨[("w", Tensor.mk [3] [1, 2, 3])], []⟩⟩) ∧
    ((⟨1, true, ⟨[("w", Tensor.mk [3] [1, 2, 3])], []⟩⟩ : PartialModel) =
      ⟨1, true, ⟨[("w", Tensor.mk [3] [1, 2, 3])], []⟩⟩ ∧
    (⟨1, true, ⟨[("w", Tensor.mk [3] [1, 2, 3])], []⟩⟩ :
        PartialModel).model.state_dict =
      (⟨1, true, ⟨[("w", Tensor.mk [3] [1, 2, 3])], []⟩⟩ :
        PartialModel).model.state_dict ∧
      ∃ idx vals T',
        jsonLoadsIntList "[0]" = some idx ∧
        jsonLoadsRatList "[9.0]" = some vals ∧
        torchIndexAssign (flattenStateDict
          (⟨1, true, ⟨[("w", Tensor.mk [3] [1, 2, 3])], []⟩⟩ :
            PartialModel).model.state_dict) idx vals = Except.ok T' ∧
        ([(("w" : String), Tensor.mk [3] [9, 2, 3])] : StateDict) =
          unflattenStateDict
            (⟨1, true, ⟨[("w", Tensor.mk [3] [1, 2, 3])], []⟩⟩ :
              PartialModel).model.state_dict T') :=
  ⟨by with_unfolding_all rfl,
    deserializedModel_preserves_model
      ⟨1, true, ⟨[("w", Tensor.mk [3] [1, 2, 3])], []⟩⟩ ⟨"[0]", "[9.0]"⟩
      [("w", Tensor.mk [3] [9, 2, 3])]
      ⟨1, true, ⟨[("w", Tensor.mk [3] [1, 2, 3])], []⟩⟩
      (by with_unfolding_all rfl)⟩

/-! ### Codec round-trip (claim C5): token level -/

theorem digitChar_isDigit {d : ℕ} (h : d < 10) :
    (Nat.digitChar d).isDigit = true := by
  interval_cases d <;> decide

theorem charToDigit_digitChar {d : ℕ} (h : d < 10) :
    charToDigit (Nat.digitChar d) = d := by
  interval_cases d <;> decide

theorem foldl_digits_eq_ofDigits (l : List ℕ) (a : ℕ) :
    l.foldl (fun n d => 10 * n + d) a =
      a * 10 ^ l.length + Nat.ofDigits 10 l.reverse := by
  induction l generalizing a with
  | nil => simp
  | cons d t ih =>
      rw [List.foldl_cons, ih, List.reverse_cons, Nat.ofDigits_append]
      simp only [List.length_cons, Nat.ofDigits_cons, Nat.ofDigits_nil,
        List.length_reverse]
      ring

theorem foldl_charToDigit (ds : List ℕ) (hds : ∀ d ∈ ds, d < 10) (a : ℕ) :
    (ds.map Nat.digitChar).foldl (fun n c => 10 * n + charToDigit c) a =
      ds.foldl (fun n d => 10 * n + d) a := by
  induction ds generalizing a with
  | nil => rfl
  | cons d t ih =>
      rw [List.map_cons, List.foldl_cons, List.foldl_cons,
        charToDigit_digitChar (hds d (List.mem_cons_self d t)),
        ih (fun e he => hds e (List.mem_cons_of_mem d he))]

theorem parseDigits_map_digitChar {ds : List ℕ} (hne : ds ≠ [])
    (hds : ∀ d ∈ ds, d < 10) :
    parseDigits (ds.map Nat.digitChar) = some (Nat.ofDigits 10 ds.reverse) := by
  unfold parseDigits
  rw [if_neg (by simp [List.isEmpty_iff, hne]), if_pos, foldl_charToDigit ds hds 0,
    foldl_digits_eq_ofDigits]
  · simp
  · rw [List.all_eq_true]
    intro c hc
    obtain ⟨d, hd, rfl⟩ := List.mem_map.mp hc
    exact digitChar_isDigit (hds d hd)

theorem natToken_eq_map (n : ℕ) (h : n ≠ 0) :
    natToken n = ((Nat.digits 10 n).reverse).map Nat.digitChar := by
  unfold natToken natToDigitChars
  rw [if_neg h]

theorem parseDigits_natToken (n : ℕ) : parseDigits (natToken n) = some n := by
  by_cases h : n = 0
  · subst h; decide
  · rw [natToken_eq_map n h, parseDigits_map_digitChar]
    · rw [List.reverse_reverse, Nat.ofDigits_digits]
    · simp [Nat.digits_ne_nil_iff_ne_zero, h]
    · intro d hd
      exact Nat.digits_lt_base (by norm_num) (List.mem_reverse.mp hd)

theorem natToken_all_digit (n : ℕ) : ∀ c ∈ natToken n, c.isDigit = true := by
  intro c hc
  by_cases h : n = 0
  · subst h
    rw [show natToken 0 = [ '0'] from rfl, List.mem_singleton] at hc
    subst hc; decide
  · rw [natToken_eq_map n h] at hc
    obtain ⟨d, hd, rfl⟩ := List.mem_map.mp hc
    exact digitChar_isDigit (Nat.digits_lt_base (by norm_num) (List.mem_reverse.mp hd))

theorem natToken_ne_nil (n : ℕ) : natToken n ≠ [] := by
  by_cases h : n = 0
  · subst h; decide
  · rw [natToken_eq_map n h]
    simp [Nat.digits_ne_nil_iff_ne_zero, h]

theorem parseIntToken_natToken (n : ℕ) :
    parseIntToken (natToken n) = some (n : ℤ) := by
  have hnm : (natToken n).head? ≠ some '-' := by
    obtain ⟨c, t, hct⟩ := List.exists_cons_of_ne_nil (natToken_ne_nil n)
    rw [hct, List.head?_cons]
    intro hhead
    have hd : c.isDigit = true := natToken_all_digit n c (hct ▸ List.mem_cons_self c t)
    rw [Option.some.inj hhead] at hd
    exact absurd hd (by decide)
  unfold parseIntToken
  rw [if_neg hnm, parseDigits_natToken]
  rfl

/-! The decimal fraction token: `ratToken` prints `q` exactly with
`k = q.den` fraction digits; parsing recovers `q` whenever
`q.den ∣ 10 ^ q.den` (true of every binary float). -/

theorem ofDigits_replicate_zero (j : ℕ) :
    Nat.ofDigits 10 (List.replicate j 0) = 0 := by
  induction j with
  | zero => rfl
  | succ j ih => rw [List.replicate_succ, Nat.ofDigits_cons, ih]

theorem head_append_digit_ne_minus {x y : List Char}
    (hx : x ≠ []) (hall : ∀ c ∈ x, c.isDigit = true) :
    (x ++ y).head? ≠ some '-' := by
  obtain ⟨c, t, rfl⟩ := List.exists_cons_of_ne_nil hx
  simp only [List.cons_append, List.head?_cons]
  intro h
  have hc := hall c (List.mem_cons_self c t)
  rw [Option.some.inj h] at hc
  exact absurd hc (by decide)

theorem takeWhile_append_stop {p : Char → Bool} {a : List Char} {b : Char}
    {t : List Char} (ha : ∀ c ∈ a, p c = true) (hb : p b = false) :
    (a ++ b :: t).takeWhile p = a ∧ (a ++ b :: t).dropWhile p = b :: t := by
  induction a with
  | nil => simp [List.takeWhile_cons, List.dropWhile_cons, hb]
  | cons c a ih =>
      have hc : p c = true := ha c (List.mem_cons_self c a)
      have := ih (fun e he => ha e (List.mem_cons_of_mem c he))
      simp [List.takeWhile_cons, List.dropWhile_cons, hc, this.1, this.2]

/-- Parsing the exact decimal printed for a dyadic-denominator rational
recovers it. -/
theorem parseRatToken_ratToken (q : Scalar) (hq : q.den ∣ 10 ^ q.den) :
    parseRatToken (ratToken q) = some q := by
  set m := 10 ^ q.den / q.den with hm
  set n := q.num.natAbs * m with hn
  have hden : (0 : ℕ) < q.den := q.den_pos
  have hmden : m * q.den = 10 ^ q.den := Nat.div_mul_cancel hq
  have hm0 : 0 < m := by
    rcases Nat.eq_zero_or_pos m with h | h
    · exfalso; rw [h, Nat.zero_mul] at hmden; exact absurd hmden.symm (by positivity)
    · exact h
  -- the padded big-endian digit list of n, as naturals
  set dsN := List.replicate (q.den + 1 - (Nat.digits 10 n).length) 0 ++
    (Nat.digits 10 n).reverse with hdsN
  have hall : ∀ d ∈ dsN, d < 10 := by
    intro d hd
    rcases List.mem_append.mp (hdsN ▸ hd) with h | h
    · rw [List.eq_of_mem_replicate h]; norm_num
    · exact Nat.digits_lt_base (by norm_num) (List.mem_reverse.mp h)
  have hpds : List.replicate (q.den + 1 - (natToDigitChars n).length) '0' ++
      natToDigitChars n = dsN.map Nat.digitChar := by
    rw [hdsN, List.map_append, List.map_replicate]
    unfold natToDigitChars
    simp only [List.length_map, List.length_reverse]
    exact congrArg (fun j => List.replicate (q.den + 1 - j) '0' ++
      ((Nat.digits 10 n).reverse.map Nat.digitChar)) (by simp)
  have hL : dsN.length = q.den + 1 - (Nat.digits 10 n).length +
      (Nat.digits 10 n).length := by
    rw [hdsN]; simp
  have hLk : q.den + 1 ≤ dsN.length := by omega
  -- the value carried by dsN is n
  have hvalue : Nat.ofDigits 10 dsN.reverse = n := by
    rw [hdsN, List.reverse_append, List.reverse_reverse, List.reverse_replicate,
      Nat.ofDigits_append, Nat.ofDigits_digits, ofDigits_replicate_zero]
    ring
  -- split at the decimal point position
  set s := dsN.length - q.den with hs
  have hxy : dsN.take s ++ dsN.drop s = dsN := List.take_append_drop s dsN
  have hlx : (dsN.take s).length = s := by
    rw [List.length_take]; omega
  have hly : (dsN.drop s).length = q.den := by
    rw [List.length_drop]; omega
  have hxne : dsN.take s ≠ [] := by
    intro h
    rw [h] at hlx
    simp at hlx
    omega
  have hyne : dsN.drop s ≠ [] := by
    intro h
    rw [h] at hly
    simp at hly
    omega
  -- values of the two digit blocks
  have hsplitval : Nat.ofDigits 10 (dsN.take s).reverse * 10 ^ q.den +
      Nat.ofDigits 10 (dsN.drop s).reverse = n := by
    have h2 := foldl_digits_eq_ofDigits dsN 0
    rw [← hxy, List.foldl_append, foldl_digits_eq_ofDigits (dsN.take s) 0,
      foldl_digits_eq_ofDigits (dsN.drop s) _, hxy, hvalue] at h2
    simp only [Nat.zero_mul, Nat.zero_add, zero_mul, zero_add] at h2
    rw [hly] at h2
    exact h2
  -- the printed body and its parse
  have hbody : ratToken q = (if q.num < 0 then [ '-'] else []) ++
      ((dsN.take s).map Nat.digitChar ++ '.' :: (dsN.drop s).map Nat.digitChar) := by
    simp only [ratToken]
    rw [← hm, ← hn, hpds]
    rw [show (dsN.map Nat.digitChar).length = dsN.length from by simp, ← hs,
      ← List.map_take, ← List.map_drop]
    split <;> rfl
  have hansplit := takeWhile_append_stop
    (p := fun c => c.isDigit)
    (a := (dsN.take s).map Nat.digitChar) (b := '.')
    (t := (dsN.drop s).map Nat.digitChar)
    (by
      intro c hc
      obtain ⟨d, hd, rfl⟩ := List.mem_map.mp hc
      exact digitChar_isDigit (hall d (List.mem_of_mem_take hd)))
    (by decide)
  have hparsebody : parseUnsignedRat ((dsN.take s).map Nat.digitChar ++
      '.' :: (dsN.drop s).map Nat.digitChar) = some ((n : Scalar) / 10 ^ q.den) := by
    simp only [parseUnsignedRat]
    rw [hansplit.1, hansplit.2, if_neg (by simp), if_pos List.head?_cons,
      List.tail_cons,
      parseDigits_map_digitChar hxne (fun d hd => hall d (List.mem_of_mem_take hd)),
      parseDigits_map_digitChar hyne (fun d hd => hall d (List.mem_of_mem_drop hd))]
    have hval : ((Nat.ofDigits 10 (dsN.take s).reverse : ℕ) : Scalar) +
        ((Nat.ofDigits 10 (dsN.drop s).reverse : ℕ) : Scalar) /
          10 ^ ((dsN.drop s).map Nat.digitChar).length =
        (n : Scalar) / 10 ^ q.den := by
      rw [show ((dsN.drop s).map Nat.digitChar).length = q.den from by
        rw [List.length_map, hly]]
      rw [← hsplitval]
      push_cast
      have h10 : ((10 : Scalar) ^ q.den) ≠ 0 := by positivity
      field_simp
    exact Option.some_inj.mpr hval
  have hqval : ((n : Scalar) / 10 ^ q.den) = |(q.num : Scalar)| / (q.den : Scalar) := by
    rw [hn]
    push_cast [Int.cast_natAbs]
    rw [show ((10 : Scalar) ^ q.den) = (m : Scalar) * (q.den : Scalar) from by
      exact_mod_cast congrArg (fun x : ℕ => (x : Scalar)) hmden.symm]
    rw [mul_comm (|(q.num : Scalar)|) (m : Scalar), mul_div_mul_left]
    exact_mod_cast hm0.ne.symm
  have hnm : ((dsN.take s).map Nat.digitChar ++
      '.' :: (dsN.drop s).map Nat.digitChar).head? ≠ some '-' := by
    apply head_append_digit_ne_minus
    · simp only [ne_eq, List.map_eq_nil_iff]
      exact hxne
    · intro c hc
      obtain ⟨d, hd, rfl⟩ := List.mem_map.mp hc
      exact digitChar_isDigit (hall d (List.mem_of_mem_take hd))
  rcases lt_or_le q.num 0 with hneg | hpos
  · rw [hbody, if_pos hneg, List.singleton_append]
    unfold parseRatToken
    rw [if_pos List.head?_cons]
    show (parseUnsignedRat ((dsN.take s).map Nat.digitChar ++
      '.' :: (dsN.drop s).map Nat.digitChar)).map (fun q => -q) = some q
    rw [hparsebody]
    simp only [Option.map_some']
    rw [hqval, abs_of_neg (by exact_mod_cast hneg : (q.num : Scalar) < 0),
      neg_div, neg_neg]
    exact congrArg some (by exact_mod_cast Rat.num_div_den q)
  · rw [hbody, if_neg (by omega), List.nil_append]
    unfold parseRatToken
    rw [if_neg hnm, hparsebody, hqval,
      abs_of_nonneg (by exact_mod_cast hpos : (0 : Scalar) ≤ (q.num : Scalar))]
    exact congrArg some (by exact_mod_cast Rat.num_div_den q)

/-! ### Codec round-trip (claim C5): list level -/

theorem splitOnComma_ne_nil (l : List Char) : splitOnComma l ≠ [] := by
  cases l with
  | nil => simp [splitOnComma]
  | cons c rest =>
      simp only [splitOnComma]
      split <;> simp

theorem splitOnComma_cons_comma (rest : List Char) :
    splitOnComma (',' :: rest) = [] :: splitOnComma rest := by
  simp [splitOnComma]

theorem splitOnComma_cons_other {c : Char} (rest : List Char) (hc : c ≠ ',') :
    splitOnComma (c :: rest) =
      (c :: (splitOnComma rest).headD []) :: (splitOnComma rest).tail := by
  simp [splitOnComma, hc]

theorem splitOnComma_append (t l : List Char) (s : List Char)
    (ss : List (List Char)) (ht : ∀ c ∈ t, c ≠ ',')
    (hl : splitOnComma l = s :: ss) :
    splitOnComma (t ++ l) = (t ++ s) :: ss := by
  induction t with
  | nil => simpa using hl
  | cons c t ih =>
      have hc : c ≠ ',' := ht c (List.mem_cons_self c t)
      have ih' := ih (fun e he => ht e (List.mem_cons_of_mem c he))
      rw [List.cons_append, splitOnComma_cons_other _ hc, ih']
      simp

theorem splitOnComma_join (t : List Char) (ts : List (List Char))
    (hcf : ∀ u ∈ t :: ts, ∀ c ∈ u, c ≠ ',') :
    splitOnComma (joinCommaSep (t :: ts)) = t :: ts.map (fun u => ' ' :: u) := by
  induction ts generalizing t with
  | nil =>
      have h := splitOnComma_append t [] [] []
        (hcf t (List.mem_cons_self t [])) rfl
      simpa [joinCommaSep] using h
  | cons u ts ih =>
      have hu := ih u (fun v hv c hc =>
        hcf v (List.mem_cons_of_mem t hv) c hc)
      have h1 : splitOnComma (' ' :: joinCommaSep (u :: ts)) =
          (' ' :: u) :: ts.map (fun v => ' ' :: v) := by
        rw [splitOnComma_cons_other _ (by decide), hu]
        simp
      have h2 : splitOnComma (',' :: ' ' :: joinCommaSep (u :: ts)) =
          [] :: (' ' :: u) :: ts.map (fun v => ' ' :: v) := by
        rw [splitOnComma_cons_comma, h1]
      have h3 := splitOnComma_append t (',' :: ' ' :: joinCommaSep (u :: ts)) []
        ((' ' :: u) :: ts.map (fun v => ' ' :: v))
        (hcf t (List.mem_cons_self t (u :: ts))) h2
      simpa [joinCommaSep] using h3

theorem dropWhile_space_of_head {t : List Char} (h : t.head? ≠ some ' ') :
    t.dropWhile (fun c => c = ' ') = t := by
  cases t with
  | nil => rfl
  | cons c t' =>
      rw [List.dropWhile_cons, if_neg]
      simp only [List.head?_cons, ne_eq, Option.some.injEq] at h
      simp [h]

theorem joinCommaSep_cons_ne_nil (t : List Char) (ts : List (List Char))
    (ht : t ≠ []) : joinCommaSep (t :: ts) ≠ [] := by
  cases ts with
  | nil => simpa [joinCommaSep] using ht
  | cons u ts => simp [joinCommaSep]

/-- Splitting undoes joining: `json.loads` recovers exactly the token
list that `json.dumps` wrote, for comma-free tokens that are non-empty
and do not begin with a blank. -/
theorem jsonLoadsTokens_dumps (ts : List (List Char))
    (hne : ∀ t ∈ ts, t ≠ [])
    (hcf : ∀ t ∈ ts, ∀ c ∈ t, c ≠ ',')
    (hsp : ∀ t ∈ ts, t.head? ≠ some ' ') :
    jsonLoadsTokens (jsonDumpsTokens ts) = some ts := by
  unfold jsonDumpsTokens jsonLoadsTokens
  have hdata : (String.mk ( '[' :: (joinCommaSep ts ++ [ ']']))).data =
      '[' :: (joinCommaSep ts ++ [ ']']) := rfl
  rw [hdata]
  have hlast : ( '[' :: (joinCommaSep ts ++ [ ']'])).getLast? = some ']' := by
    rw [show '[' :: (joinCommaSep ts ++ [ ']']) =
      ( '[' :: joinCommaSep ts) ++ [ ']'] from by simp, List.getLast?_concat]
  rw [if_pos ⟨rfl, hlast⟩]
  rw [show ( '[' :: (joinCommaSep ts ++ [ ']'])).tail =
    joinCommaSep ts ++ [ ']'] from rfl]
  rw [List.dropLast_concat]
  cases ts with
  | nil => simp [joinCommaSep]
  | cons t ts' =>
      rw [if_neg (by
        simp only [List.isEmpty_iff]
        exact joinCommaSep_cons_ne_nil t ts' (hne t (List.mem_cons_self t ts')))]
      rw [splitOnComma_join t ts' hcf, List.map_cons,
        dropWhile_space_of_head (hsp t (List.mem_cons_self t ts')),
        List.map_map]
      have hmap : ts'.map (List.dropWhile (fun c => c = ' ') ∘
          (fun u => ' ' :: u)) = ts' := by
        have h : ∀ u ∈ ts', (List.dropWhile (fun c => c = ' ') ∘
            (fun u => ' ' :: u)) u = id u := by
          intro u hu
          simp only [Function.comp_apply, id_eq, List.dropWhile_cons]
          rw [if_pos (by decide)]
          exact dropWhile_space_of_head (hsp u (List.mem_cons_of_mem t hu))
        rw [List.map_congr_left h, List.map_id]
      rw [hmap]

/-! ### Codec round-trip (claim C5): assembly -/

theorem natToDigitChars_all_digit (n : ℕ) :
    ∀ c ∈ natToDigitChars n, c.isDigit = true := by
  intro c hc
  unfold natToDigitChars at hc
  obtain ⟨d, hd, rfl⟩ := List.mem_map.mp hc
  exact digitChar_isDigit (Nat.digits_lt_base (by norm_num) (List.mem_reverse.mp hd))

theorem ratToken_chars (q : Scalar) :
    ∀ c ∈ ratToken q, c.isDigit = true ∨ c = '.' ∨ c = '-' := by
  intro c hc
  simp only [ratToken] at hc
  set pds := List.replicate (q.den + 1 -
    (natToDigitChars (q.num.natAbs * (10 ^ q.den / q.den))).length) '0' ++
    natToDigitChars (q.num.natAbs * (10 ^ q.den / q.den)) with hpds
  have hdig : ∀ x ∈ pds, x.isDigit = true := by
    intro x hx
    rcases List.mem_append.mp (hpds ▸ hx) with h | h
    · rw [List.eq_of_mem_replicate h]; decide
    · exact natToDigitChars_all_digit _ x h
  have hbody : ∀ x ∈ pds.take (pds.length - q.den) ++
      '.' :: pds.drop (pds.length - q.den),
      x.isDigit = true ∨ x = '.' ∨ x = '-' := by
    intro x hx
    rcases List.mem_append.mp hx with h | h
    · exact Or.inl (hdig x (List.mem_of_mem_take h))
    · rcases List.mem_cons.mp h with h | h
      · exact Or.inr (Or.inl h)
      · exact Or.inl (hdig x (List.mem_of_mem_drop h))
  split at hc
  · rcases List.mem_cons.mp hc with h | h
    · exact Or.inr (Or.inr h)
    · exact hbody c h
  · exact hbody c hc

theorem ratToken_ne_nil (q : Scalar) : ratToken q ≠ [] := by
  simp only [ratToken]
  split
  · simp
  · simp

theorem head?_ne_space_of_chars {t : List Char}
    (h : ∀ c ∈ t, c.isDigit = true ∨ c = '.' ∨ c = '-') :
    t.head? ≠ some ' ' := by
  cases t with
  | nil => simp
  | cons c t' =>
      simp only [List.head?_cons, ne_eq, Option.some.injEq]
      intro he
      subst he
      rcases h ' ' (List.mem_cons_self _ _) with h1 | h1 | h1
      · exact absurd h1 (by decide)
      · exact absurd h1 (by decide)
      · exact absurd h1 (by decide)

theorem ne_comma_of_chars {t : List Char}
    (h : ∀ c ∈ t, c.isDigit = true ∨ c = '.' ∨ c = '-') :
    ∀ c ∈ t, c ≠ ',' := by
  intro c hc he
  subst he
  rcases h ',' hc with h1 | h1 | h1
  · exact absurd h1 (by decide)
  · exact absurd h1 (by decide)
  · exact absurd h1 (by decide)

theorem natToken_chars (n : ℕ) :
    ∀ c ∈ natToken n, c.isDigit = true ∨ c = '.' ∨ c = '-' :=
  fun c hc => Or.inl (natToken_all_digit n c hc)

theorem mapM_parseIntToken (ns : List ℕ) :
    (ns.map natToken).mapM parseIntToken = some (ns.map (fun (a : ℕ) => (a : ℤ))) := by
  induction ns with
  | nil => rfl
  | cons n ns ih =>
      rw [List.map_cons, List.map_cons, List.mapM_cons, parseIntToken_natToken, ih]
      rfl

theorem mapM_parseRatToken (vals : List Scalar)
    (hv : ∀ q ∈ vals, q.den ∣ 10 ^ q.den) :
    (vals.map ratToken).mapM parseRatToken = some vals := by
  induction vals with
  | nil => rfl
  | cons v vs ih =>
      rw [List.map_cons, List.mapM_cons,
        parseRatToken_ratToken v (hv v (List.mem_cons_self v vs)),
        ih (fun q hq => hv q (List.mem_cons_of_mem v hq))]
      rfl

/-- Claim C5: decoding the encoded wire form of a valid update restores
it: `json.loads` after `json.dumps` recovers the index sequence exactly
(as integers) and the value sequence exactly, for values representable
on the wire (dyadic denominators — every binary float qualifies; this
is the "modulo the wire's numeric precision" proviso). -/
theorem codec_round_trip (idx : List ℕ) (vals : List Scalar)
    (hv : ∀ q ∈ vals, q.den ∣ 10 ^ q.den) :
    jsonLoadsIntList (jsonDumpsNatList idx) =
      some (idx.map (fun (a : ℕ) => (a : ℤ))) ∧
    jsonLoadsRatList (jsonDumpsRatList vals) = some vals := by
  constructor
  · unfold jsonLoadsIntList jsonDumpsNatList
    rw [jsonLoadsTokens_dumps]
    · exact mapM_parseIntToken idx
    · intro t ht
      obtain ⟨n, _, rfl⟩ := List.mem_map.mp ht
      exact natToken_ne_nil n
    · intro t ht
      obtain ⟨n, _, rfl⟩ := List.mem_map.mp ht
      exact ne_comma_of_chars (natToken_chars n)
    · intro t ht
      obtain ⟨n, _, rfl⟩ := List.mem_map.mp ht
      exact head?_ne_space_of_chars (natToken_chars n)
  · unfold jsonLoadsRatList jsonDumpsRatList
    rw [jsonLoadsTokens_dumps]
    · exact mapM_parseRatToken vals hv
    · intro t ht
      obtain ⟨q, _, rfl⟩ := List.mem_map.mp ht
      exact ratToken_ne_nil q
    · intro t ht
      obtain ⟨q, _, rfl⟩ := List.mem_map.mp ht
      exact ne_comma_of_chars (ratToken_chars q)
    · intro t ht
      obtain ⟨q, _, rfl⟩ := List.mem_map.mp ht
      exact head?_ne_space_of_chars (ratToken_chars q)

/-- Witness for C5: the update with indices `[3, 0]` and float values
`4.5, -0.75, 5.0` survives the round trip. -/
theorem codec_round_trip_witness :
    (∀ q ∈ ([mkRat 9 2, -(mkRat 3 4), 5] : List Scalar), q.den ∣ 10 ^ q.den) ∧
    (jsonLoadsIntList (jsonDumpsNatList [3, 0]) =
      some (([3, 0] : List ℕ).map (fun (a : ℕ) => (a : ℤ))) ∧
    jsonLoadsRatList (jsonDumpsRatList [mkRat 9 2, -(mkRat 3 4), 5]) =
      some [mkRat 9 2, -(mkRat 3 4), 5]) :=
  ⟨by decide, codec_round_trip [3, 0] [mkRat 9 2, -(mkRat 3 4), 5] (by decide)⟩

end DecentralizePy
